import Mathlib

/-!
Verification of the numeric-literal parsing library.

The source consists of two Rust files: `lib.rs` declares the trait
`NumLiteralTrait` with `parse_literal` and `parse_literal_fallback`, and
`parse_literal.rs` implements them for every `T : Num` on top of the
classifier `identify_literal` and the underlying `T::from_str_radix`.

Modelling choices:
  - Rust strings are modelled as `List Char` of unicode scalar values.
    Rust `str::len` counts UTF-8 BYTES, so we model it by `strLen`, which
    sums the UTF-8 encoded size of each scalar.  Byte slices such as
    `&text[2..]` are modelled by `List.drop` on chars; this is justified
    separately: the "panicking" byte-level versions (`identify_literalP`,
    `parse_literalP`, using `byteSliceFrom` on actual byte counts, with
    `none` for a panic) are proved to agree with the total char-level
    versions, which also shows Rust-level panic freedom.
  - Rust `str::to_lowercase` is full-unicode, applied only to test the
    three prefixes "0b", "0x", "0".  No unicode character other than
    `0`, `b`/`B`, `x`/`X` has a lowercase form beginning with `0`, `b`
    or `x` (the only length-changing lowercase mapping is U+0130, whose
    lowercase starts with `i`), so on these three tests `to_lowercase`
    coincides with the per-character ASCII mapping `rustToLower`, which is
    what we use.
  - The generic `T::from_str_radix` is an abstract parameter (`NumImpl`).
    The concrete instance used by the tests, `u32::from_str_radix` from
    the Rust standard library, is modelled by `u32_from_str_radix`:
    values are `Nat` with an explicit `2 ^ 32` overflow check, errors are
    the relevant `IntErrorKind` constructors.  For an unsigned type the
    std parser treats a lone `+` or `-` as `InvalidDigit`, consumes a
    leading `+`, and otherwise feeds every byte to `to_digit`.
-/

/-- Error kinds of the std library `ParseIntError` that `from_str_radix`
can produce for an unsigned integer type. -/
inductive IntErrorKind : Type where
  | Empty : IntErrorKind
  | InvalidDigit : IntErrorKind
  | PosOverflow : IntErrorKind
  | NegOverflow : IntErrorKind
deriving DecidableEq

/-- Decidable equality on `Except`, used to evaluate concrete parses. -/
instance {E A : Type} [DecidableEq E] [DecidableEq A] : DecidableEq (Except E A) :=
  fun a b =>
    match a, b with
    | .ok x, .ok y =>
      decidable_of_iff (x = y) ⟨fun h => by rw [h], fun h => by injection h⟩
    | .ok _, .error _ => .isFalse (fun h => Except.noConfusion h)
    | .error _, .ok _ => .isFalse (fun h => Except.noConfusion h)
    | .error x, .error y =>
      decidable_of_iff (x = y) ⟨fun h => by rw [h], fun h => by injection h⟩

/-- The single-quote character U+0027, written via its code point. -/
def sqc : Char := Char.ofNat 39

/-- Unicode White_Space property, the set trimmed by Rust `str::trim`
(via `char::is_whitespace`). -/
def isRustWhitespace (c : Char) : Bool :=
  let n := c.toNat
  decide ((9 ≤ n ∧ n ≤ 13) ∨ n = 32 ∨ n = 133 ∨ n = 160 ∨ n = 0x1680 ∨
    (0x2000 ≤ n ∧ n ≤ 0x200A) ∨ n = 0x2028 ∨ n = 0x2029 ∨ n = 0x202F ∨
    n = 0x205F ∨ n = 0x3000)

/-- Rust `str::trim`: remove leading and trailing whitespace. -/
def rustTrim (s : List Char) : List Char :=
  ((s.dropWhile isRustWhitespace).reverse.dropWhile isRustWhitespace).reverse

/-- Per-character model of Rust `str::to_lowercase` as used by
`identify_literal` (see the header comment: on the three prefix tests it
agrees with the full unicode mapping). -/
def rustToLower (c : Char) : Char :=
  if 65 ≤ c.toNat ∧ c.toNat ≤ 90 then Char.ofNat (c.toNat + 32) else c

/-- Number of bytes of the UTF-8 encoding of one unicode scalar value. -/
def charUtf8Len (c : Char) : Nat :=
  if c.toNat < 0x80 then 1
  else if c.toNat < 0x800 then 2
  else if c.toNat < 0x10000 then 3
  else 4

/-- Rust `str::len`: the length in BYTES of the UTF-8 encoding. -/
def strLen : List Char → Nat
  | [] => 0
  | c :: cs => charUtf8Len c + strLen cs

/-- UTF-8 encoding of one unicode scalar value as a list of byte values. -/
def charUtf8Bytes (c : Char) : List Nat :=
  let n := c.toNat
  if n < 0x80 then [n]
  else if n < 0x800 then [0xC0 + n / 64, 0x80 + n % 64]
  else if n < 0x10000 then [0xE0 + n / 4096, 0x80 + n / 64 % 64, 0x80 + n % 64]
  else [0xF0 + n / 262144, 0x80 + n / 4096 % 64, 0x80 + n / 64 % 64, 0x80 + n % 64]

/-- Rust `str::as_bytes`: the UTF-8 encoding of the whole string. -/
def strUtf8Bytes : List Char → List Nat
  | [] => []
  | c :: cs => charUtf8Bytes c ++ strUtf8Bytes cs

/-- Boolean test that the second list begins with the first, modelling
Rust `str::starts_with` on the literal patterns used in the source. -/
def startsWithChars : List Char → List Char → Bool
  | [], _ => true
  | _ :: _, [] => false
  | p :: ps, c :: cs => p == c && startsWithChars ps cs

/-- Rust `fn identify_literal(text: &str) -> (&str, u32)` from
`parse_literal.rs`: trim, then case-insensitive prefix dispatch, first
match wins.  Byte slices `&text[2..]` and `&text[1..]` are modelled by
`List.drop`; the matched prefix characters are ASCII, so the counts
agree (proved via `identify_literalP`). -/
def identify_literal (text : List Char) : List Char × Nat :=
  let t := rustTrim text
  if startsWithChars ['0', 'b'] (t.map rustToLower) then (t.drop 2, 2)
  else if startsWithChars ['0', 'x'] (t.map rustToLower) then (t.drop 2, 16)
  else if decide (1 < strLen t) && startsWithChars ['0'] (t.map rustToLower) then (t.drop 1, 8)
  else (t, 10)

/-- Decimal digit character for a value below ten. -/
def decDigitChar (d : Nat) : Char := Char.ofNat (48 + d)

/-- Fuel-driven core of the decimal printer (most significant digit
first), mirroring integer `to_string`.  Structural recursion on the fuel
keeps it kernel-reducible; `natToDecString` supplies enough fuel. -/
def natToDecStringAux : Nat → Nat → List Char
  | 0, _ => []
  | fuel + 1, n =>
    if n < 10 then [decDigitChar n]
    else natToDecStringAux fuel (n / 10) ++ [decDigitChar (n % 10)]

/-- Decimal string representation of a natural number, modelling Rust
integer `to_string` (used on the byte of a char literal) and the base-10
serialization in the round-trip property. -/
def natToDecString (n : Nat) : List Char := natToDecStringAux (n + 1) n

/-- Rust `str::replace("_", "")` on the numeric body. -/
def removeUnderscores (s : List Char) : List Char := s.filter (fun c => !(c == '_'))

/-- Abstract interface for the numeric target type: the source is generic
over `T : Num`, whose only capability used is
`from_str_radix : &str -> u32 -> Result<T, E>`. -/
structure NumImpl (T : Type) (E : Type) where
  from_str_radix : List Char → Nat → Except E T

/-- Rust `Result::unwrap_or`. -/
def unwrap_or {T E : Type} (r : Except E T) (fallback : T) : T :=
  match r with
  | .ok v => v
  | .error _ => fallback

/-- Rust `fn parse_literal(text: &str) -> Result<T, ...>` from
`parse_literal.rs`: char-literal special case on the RAW text (byte
length exactly 3, first and last byte a single quote), otherwise
classifier plus underscore removal plus `from_str_radix`.  The byte
`text.as_bytes()[1]` of the char branch is `byteAt1`; its `unwrap` never
panics (proved via `parse_literalP`). -/
def byteAt1 (text : List Char) : Nat := (strUtf8Bytes text).getD 1 0

def parse_literal {T E : Type} (P : NumImpl T E) (text : List Char) : Except E T :=
  if strLen text = 3 ∧ text.head? = some sqc ∧ text.getLast? = some sqc then
    P.from_str_radix (natToDecString (byteAt1 text)) 10
  else
    let nr := identify_literal text
    P.from_str_radix (removeUnderscores nr.1) nr.2

/-- Rust `fn parse_literal_fallback(text: &str, fallback: T) -> T`: the
same two branches, each post-composed with `unwrap_or(fallback)`. -/
def parse_literal_fallback {T E : Type} (P : NumImpl T E) (text : List Char) (fallback : T) : T :=
  if strLen text = 3 ∧ text.head? = some sqc ∧ text.getLast? = some sqc then
    unwrap_or (P.from_str_radix (natToDecString (byteAt1 text)) 10) fallback
  else
    let nr := identify_literal text
    unwrap_or (P.from_str_radix (removeUnderscores nr.1) nr.2) fallback

/-- Rust `char::to_digit(radix)`: value of a digit character, accepted
when below the radix. -/
def charToDigit (c : Char) (radix : Nat) : Option Nat :=
  let v :=
    if 48 ≤ c.toNat ∧ c.toNat ≤ 57 then some (c.toNat - 48)
    else if 97 ≤ c.toNat ∧ c.toNat ≤ 122 then some (c.toNat - 97 + 10)
    else if 65 ≤ c.toNat ∧ c.toNat ≤ 90 then some (c.toNat - 65 + 10)
    else none
  match v with
  | some d => if d < radix then some d else none
  | none => none

/-- Digit-accumulation loop of std `u32::from_str_radix`: each byte must
be a digit of the radix, and the accumulator is checked against the
`u32` range at every step (checked multiply and add; on an unsigned type
an overflow is always `PosOverflow`). -/
def from_str_radix_loop (radix : Nat) : List Char → Nat → Except IntErrorKind Nat
  | [], acc => .ok acc
  | c :: rest, acc =>
    match charToDigit c radix with
    | none => .error .InvalidDigit
    | some d =>
      if acc * radix + d < 2 ^ 32 then from_str_radix_loop radix rest (acc * radix + d)
      else .error .PosOverflow

/-- Model of std `u32::from_str_radix` (the radix is always one of 2, 8,
10, 16 here, inside the asserted range 2..=36).  An empty string is
`Empty`; a lone sign is `InvalidDigit`; a leading `+` is consumed; for
an unsigned type a `-` is not a sign and fails in the loop as an invalid
digit. -/
def u32_from_str_radix (s : List Char) (radix : Nat) : Except IntErrorKind Nat :=
  match s with
  | [] => .error .Empty
  | c :: rest =>
    if c = '+' then
      if rest = [] then .error .InvalidDigit
      else from_str_radix_loop radix rest 0
    else from_str_radix_loop radix (c :: rest) 0

/-- The `u32` instance of the generic interface, the one exercised by the
doc examples and the test module of the source. -/
def u32Impl : NumImpl Nat IntErrorKind := ⟨u32_from_str_radix⟩

def u32_parse_literal (text : List Char) : Except IntErrorKind Nat :=
  parse_literal u32Impl text

def u32_parse_literal_fallback (text : List Char) (fallback : Nat) : Nat :=
  parse_literal_fallback u32Impl text fallback

/-- Byte-exact model of a Rust byte slice `&s[n..]`: drop the first `n`
bytes of the UTF-8 encoding, `none` (a panic) when `n` is not a char
boundary or exceeds the length. -/
def byteSliceFrom : List Char → Nat → Option (List Char)
  | s, 0 => some s
  | [], _ + 1 => none
  | c :: cs, n + 1 =>
    if charUtf8Len c ≤ n + 1 then byteSliceFrom cs (n + 1 - charUtf8Len c) else none

/-- Byte-exact, panic-aware version of `identify_literal`: the slices
`&text[2..]` and `&text[1..]` are taken with `byteSliceFrom`, and a
slicing panic is `none`. -/
def identify_literalP (text : List Char) : Option (List Char × Nat) :=
  let t := rustTrim text
  if startsWithChars ['0', 'b'] (t.map rustToLower) then
    match byteSliceFrom t 2 with
    | some r => some (r, 2)
    | none => none
  else if startsWithChars ['0', 'x'] (t.map rustToLower) then
    match byteSliceFrom t 2 with
    | some r => some (r, 16)
    | none => none
  else if decide (1 < strLen t) && startsWithChars ['0'] (t.map rustToLower) then
    match byteSliceFrom t 1 with
    | some r => some (r, 8)
    | none => none
  else some (t, 10)

/-- Byte-exact, panic-aware version of `parse_literal`: the `unwrap` of
`text.as_bytes().iter().nth(1)` is `none` (a panic) when byte 1 does not
exist, and a classifier panic propagates. -/
def parse_literalP {T E : Type} (P : NumImpl T E) (text : List Char) : Option (Except E T) :=
  if strLen text = 3 ∧ text.head? = some sqc ∧ text.getLast? = some sqc then
    match (strUtf8Bytes text).get? 1 with
    | some b => some (P.from_str_radix (natToDecString b) 10)
    | none => none
  else
    match identify_literalP text with
    | some nr => some (P.from_str_radix (removeUnderscores nr.1) nr.2)
    | none => none

/-- Byte-exact, panic-aware version of `parse_literal_fallback`. -/
def parse_literal_fallbackP {T E : Type} (P : NumImpl T E) (text : List Char) (fallback : T) :
    Option T :=
  if strLen text = 3 ∧ text.head? = some sqc ∧ text.getLast? = some sqc then
    match (strUtf8Bytes text).get? 1 with
    | some b => some (unwrap_or (P.from_str_radix (natToDecString b) 10) fallback)
    | none => none
  else
    match identify_literalP text with
    | some nr => some (unwrap_or (P.from_str_radix (removeUnderscores nr.1) nr.2) fallback)
    | none => none

/-- Classifier as literally described by the spec algorithm: trim, then
four numbered cases in priority order with explicit case-insensitive
prefixes.  Modelled from the spec wording for the refinement statement of
claim C1; `identify_literal` above is the translation of the source. -/
def classifier_spec (text : List Char) : List Char × Nat :=
  let t := rustTrim text
  match t with
  | c0 :: c1 :: rest =>
    if c0 = '0' then
      if c1 = 'b' ∨ c1 = 'B' then (rest, 2)
      else if c1 = 'x' ∨ c1 = 'X' then (rest, 16)
      else (c1 :: rest, 8)
    else (t, 10)
  | _ => (t, 10)

/-- Value of `Char.ofNat` on code points below the surrogate range. -/
theorem toNat_ofNat_valid (n : Nat) (h : n < 55296) : (Char.ofNat n).toNat = n := by
  rw [Char.ofNat, dif_pos (Or.inl h)]
  rfl

/-- Characters with equal code points are equal. -/
theorem char_toNat_inj {a b : Char} (h : a.toNat = b.toNat) : a = b :=
  Char.ext (UInt32.ext h)

theorem rustToLower_eq_zero_iff (c : Char) : rustToLower c = '0' ↔ c = '0' := by
  constructor
  · intro h
    unfold rustToLower at h
    split at h
    · exfalso
      rename_i hr
      have h2 := congrArg Char.toNat h
      rw [toNat_ofNat_valid _ (by omega)] at h2
      have h0 : Char.toNat '0' = 48 := rfl
      omega
    · exact h
  · intro h
    subst h
    decide

theorem rustToLower_eq_b_iff (c : Char) : rustToLower c = 'b' ↔ (c = 'b' ∨ c = 'B') := by
  constructor
  · intro h
    unfold rustToLower at h
    split at h
    · rename_i hr
      have h2 := congrArg Char.toNat h
      rw [toNat_ofNat_valid _ (by omega)] at h2
      have h0 : Char.toNat 'b' = 98 := rfl
      have hB : Char.toNat 'B' = 66 := rfl
      exact Or.inr (char_toNat_inj (by omega))
    · exact Or.inl h
  · intro h
    rcases h with h | h <;> subst h <;> decide

theorem rustToLower_eq_x_iff (c : Char) : rustToLower c = 'x' ↔ (c = 'x' ∨ c = 'X') := by
  constructor
  · intro h
    unfold rustToLower at h
    split at h
    · rename_i hr
      have h2 := congrArg Char.toNat h
      rw [toNat_ofNat_valid _ (by omega)] at h2
      have h0 : Char.toNat 'x' = 120 := rfl
      have hX : Char.toNat 'X' = 88 := rfl
      exact Or.inr (char_toNat_inj (by omega))
    · exact Or.inl h
  · intro h
    rcases h with h | h <;> subst h <;> decide

theorem charUtf8Len_pos (c : Char) : 1 ≤ charUtf8Len c := by
  unfold charUtf8Len
  split
  · omega
  · split
    · omega
    · split <;> omega

theorem charUtf8Len_eq_one_iff (c : Char) : charUtf8Len c = 1 ↔ c.toNat < 128 := by
  unfold charUtf8Len
  split
  · rename_i h
    simp [h]
  · rename_i h
    split
    · simpa using h
    · split <;> simpa using h

theorem charUtf8Len_ascii {c : Char} (h : c.toNat < 128) : charUtf8Len c = 1 := by
  unfold charUtf8Len
  rw [if_pos h]

theorem charUtf8Bytes_ascii {c : Char} (h : c.toNat < 128) : charUtf8Bytes c = [c.toNat] := by
  unfold charUtf8Bytes
  simp only [if_pos h]

theorem length_le_strLen (s : List Char) : s.length ≤ strLen s := by
  induction s with
  | nil => simp [strLen]
  | cons c cs ih =>
    have := charUtf8Len_pos c
    simp only [List.length_cons, strLen]
    omega

/-- Shape of any input accepted by the char-literal guard: byte length 3
with a single quote first and last forces a three-character string whose
middle character is a single (ASCII) byte. -/
theorem char_guard_shape {text : List Char} (h3 : strLen text = 3)
    (hh : text.head? = some sqc) (hl : text.getLast? = some sqc) :
    ∃ c, c.toNat < 128 ∧ text = [sqc, c, sqc] := by
  match text with
  | [] => simp at hh
  | [a] =>
    simp only [List.head?] at hh
    injection hh with hh
    subst hh
    simp [strLen, charUtf8Len, sqc, toNat_ofNat_valid] at h3
  | [a, b] =>
    simp only [List.head?] at hh
    injection hh with hh
    subst hh
    have hb : b = sqc := by simpa using hl
    subst hb
    simp [strLen, charUtf8Len, sqc, toNat_ofNat_valid] at h3
  | [a, b, c] =>
    simp only [List.head?] at hh
    injection hh with hh
    subst hh
    have hc : c = sqc := by simpa using hl
    subst hc
    have hq : charUtf8Len sqc = 1 := by decide
    simp only [strLen, hq] at h3
    have hb : charUtf8Len b = 1 := by omega
    exact ⟨b, (charUtf8Len_eq_one_iff b).mp hb, rfl⟩
  | a :: b :: c :: d :: rest =>
    exfalso
    have h4 : (a :: b :: c :: d :: rest).length ≤ strLen (a :: b :: c :: d :: rest) :=
      length_le_strLen _
    simp only [List.length_cons] at h4
    omega


theorem sw_0b_iff (t : List Char) :
    startsWithChars ['0', 'b'] (t.map rustToLower) = true ↔
      ∃ c1 rest, t = '0' :: c1 :: rest ∧ (c1 = 'b' ∨ c1 = 'B') := by
  match t with
  | [] =>
    simp [startsWithChars]
  | [c0] =>
    simp [startsWithChars]
  | c0 :: c1 :: rest =>
    simp only [List.map_cons, startsWithChars, Bool.and_true, Bool.and_eq_true, beq_iff_eq]
    constructor
    · rintro ⟨h0, hb⟩
      have hc0 : c0 = '0' := (rustToLower_eq_zero_iff c0).mp h0.symm
      exact ⟨c1, rest, by rw [hc0], (rustToLower_eq_b_iff c1).mp hb.symm⟩
    · rintro ⟨c1', rest', heq, hb⟩
      obtain ⟨h1, h2, h3⟩ : c0 = '0' ∧ c1 = c1' ∧ rest = rest' := by
        simpa using heq
      subst h1; subst h2
      refine ⟨rfl, ?_⟩
      exact ((rustToLower_eq_b_iff c1).mpr hb).symm

theorem sw_0x_iff (t : List Char) :
    startsWithChars ['0', 'x'] (t.map rustToLower) = true ↔
      ∃ c1 rest, t = '0' :: c1 :: rest ∧ (c1 = 'x' ∨ c1 = 'X') := by
  match t with
  | [] =>
    simp [startsWithChars]
  | [c0] =>
    simp [startsWithChars]
  | c0 :: c1 :: rest =>
    simp only [List.map_cons, startsWithChars, Bool.and_true, Bool.and_eq_true, beq_iff_eq]
    constructor
    · rintro ⟨h0, hx⟩
      have hc0 : c0 = '0' := (rustToLower_eq_zero_iff c0).mp h0.symm
      exact ⟨c1, rest, by rw [hc0], (rustToLower_eq_x_iff c1).mp hx.symm⟩
    · rintro ⟨c1', rest', heq, hx⟩
      obtain ⟨h1, h2, h3⟩ : c0 = '0' ∧ c1 = c1' ∧ rest = rest' := by
        simpa using heq
      subst h1; subst h2
      refine ⟨rfl, ?_⟩
      exact ((rustToLower_eq_x_iff c1).mpr hx).symm

theorem sw_0_iff (t : List Char) :
    startsWithChars ['0'] (t.map rustToLower) = true ↔ ∃ rest, t = '0' :: rest := by
  match t with
  | [] =>
    simp [startsWithChars]
  | c0 :: rest =>
    simp only [List.map_cons, startsWithChars, Bool.and_true, beq_iff_eq]
    constructor
    · intro h0
      exact ⟨rest, by rw [(rustToLower_eq_zero_iff c0).mp h0.symm]⟩
    · rintro ⟨rest', heq⟩
      obtain ⟨h1, h2⟩ : c0 = '0' ∧ rest = rest' := by simpa using heq
      subst h1
      exact ((rustToLower_eq_zero_iff '0').mpr rfl).symm
theorem strLen_two_gt_one (c0 c1 : Char) (rest : List Char) :
    1 < strLen (c0 :: c1 :: rest) := by
  have h0 := charUtf8Len_pos c0
  have h1 := charUtf8Len_pos c1
  have h2 : 0 ≤ strLen rest := Nat.zero_le _
  simp only [strLen]
  omega

/-- C1: for every input text the classifier trims surrounding whitespace
and then selects the radix by case-insensitive prefix inspection in the
priority order binary, hexadecimal, octal (length > 1), decimal, first
match wins, returning the body with the consumed prefix removed — that
is, it equals the four-step spec algorithm `classifier_spec`. -/
theorem identify_literal_eq_spec (text : List Char) :
    identify_literal text = classifier_spec text := by
  simp only [identify_literal, classifier_spec]
  generalize rustTrim text = t
  match t with
  | [] => rfl
  | [c0] =>
    by_cases hc : c0 = '0'
    · subst hc
      rfl
    · have h01 : startsWithChars ['0', 'b'] ([c0].map rustToLower) = false := by
        rw [Bool.eq_false_iff]
        intro h
        rcases (sw_0b_iff [c0]).mp h with ⟨c1, rest, heq, _⟩
        simp at heq
      have h02 : startsWithChars ['0', 'x'] ([c0].map rustToLower) = false := by
        rw [Bool.eq_false_iff]
        intro h
        rcases (sw_0x_iff [c0]).mp h with ⟨c1, rest, heq, _⟩
        simp at heq
      have h03 : startsWithChars ['0'] ([c0].map rustToLower) = false := by
        rw [Bool.eq_false_iff]
        intro h
        rcases (sw_0_iff [c0]).mp h with ⟨rest, heq⟩
        obtain ⟨h1, _⟩ : c0 = '0' ∧ [] = rest := by simpa using heq
        exact hc h1
      simp only [List.map_cons, List.map_nil] at h01 h02 h03
      simp [h01, h02, h03]
  | c0 :: c1 :: rest =>
    by_cases hc0 : c0 = '0'
    · subst hc0
      by_cases hb : c1 = 'b' ∨ c1 = 'B'
      · have h01 : startsWithChars ['0', 'b'] (('0' :: c1 :: rest).map rustToLower) = true :=
          (sw_0b_iff _).mpr ⟨c1, rest, rfl, hb⟩
        simp only [List.map_cons, List.map_nil] at h01
        simp [h01, hb]
      · have h01 : startsWithChars ['0', 'b'] (('0' :: c1 :: rest).map rustToLower) = false := by
          rw [Bool.eq_false_iff]
          intro h
          rcases (sw_0b_iff _).mp h with ⟨c1', rest', heq, hb'⟩
          obtain ⟨_, h2, _⟩ : ('0' : Char) = '0' ∧ c1 = c1' ∧ rest = rest' := by simpa using heq
          subst h2
          exact hb hb'
        by_cases hx : c1 = 'x' ∨ c1 = 'X'
        · have h02 : startsWithChars ['0', 'x'] (('0' :: c1 :: rest).map rustToLower) = true :=
            (sw_0x_iff _).mpr ⟨c1, rest, rfl, hx⟩
          simp only [List.map_cons, List.map_nil] at h01 h02
          simp [h01, h02, hb, hx]
        · have h02 : startsWithChars ['0', 'x'] (('0' :: c1 :: rest).map rustToLower) = false := by
            rw [Bool.eq_false_iff]
            intro h
            rcases (sw_0x_iff _).mp h with ⟨c1', rest', heq, hx'⟩
            obtain ⟨_, h2, _⟩ : ('0' : Char) = '0' ∧ c1 = c1' ∧ rest = rest' := by simpa using heq
            subst h2
            exact hx hx'
          have h03 : startsWithChars ['0'] (('0' :: c1 :: rest).map rustToLower) = true :=
            (sw_0_iff _).mpr ⟨c1 :: rest, rfl⟩
          have hlen : 1 < strLen ('0' :: c1 :: rest) := strLen_two_gt_one _ _ _
          simp only [List.map_cons, List.map_nil] at h01 h02 h03
          simp [h01, h02, h03, hb, hx, hlen]
    · have h01 : startsWithChars ['0', 'b'] ((c0 :: c1 :: rest).map rustToLower) = false := by
        rw [Bool.eq_false_iff]
        intro h
        rcases (sw_0b_iff _).mp h with ⟨c1', rest', heq, _⟩
        obtain ⟨h1, _, _⟩ : c0 = '0' ∧ c1 = c1' ∧ rest = rest' := by simpa using heq
        exact hc0 h1
      have h02 : startsWithChars ['0', 'x'] ((c0 :: c1 :: rest).map rustToLower) = false := by
        rw [Bool.eq_false_iff]
        intro h
        rcases (sw_0x_iff _).mp h with ⟨c1', rest', heq, _⟩
        obtain ⟨h1, _, _⟩ : c0 = '0' ∧ c1 = c1' ∧ rest = rest' := by simpa using heq
        exact hc0 h1
      have h03 : startsWithChars ['0'] ((c0 :: c1 :: rest).map rustToLower) = false := by
        rw [Bool.eq_false_iff]
        intro h
        rcases (sw_0_iff _).mp h with ⟨rest', heq⟩
        obtain ⟨h1, _⟩ : c0 = '0' ∧ c1 :: rest = rest' := by simpa using heq
        exact hc0 h1
      simp only [List.map_cons, List.map_nil] at h01 h02 h03
      simp [h01, h02, h03, hc0]
theorem byteSliceFrom_two {c0 c1 : Char} (h0 : charUtf8Len c0 = 1) (h1 : charUtf8Len c1 = 1)
    (rest : List Char) : byteSliceFrom (c0 :: c1 :: rest) 2 = some rest := by
  simp [byteSliceFrom, h0, h1]

theorem byteSliceFrom_one {c0 : Char} (h0 : charUtf8Len c0 = 1) (rest : List Char) :
    byteSliceFrom (c0 :: rest) 1 = some rest := by
  simp [byteSliceFrom, h0]

/-- The classifier never panics: both byte slices land on character
boundaries, so the byte-exact version agrees with the total one. -/
theorem identify_literalP_eq (text : List Char) :
    identify_literalP text = some (identify_literal text) := by
  simp only [identify_literalP, identify_literal]
  generalize rustTrim text = t
  by_cases h1 : startsWithChars ['0', 'b'] (t.map rustToLower) = true
  · rcases (sw_0b_iff t).mp h1 with ⟨c1, rest, heq, hb⟩
    subst heq
    have hc1 : charUtf8Len c1 = 1 := by
      rcases hb with h | h <;> subst h <;> decide
    have h0 : charUtf8Len '0' = 1 := by decide
    simp only [List.map_cons, List.map_nil] at h1
    simp [h1, byteSliceFrom_two h0 hc1]
  · by_cases h2 : startsWithChars ['0', 'x'] (t.map rustToLower) = true
    · rcases (sw_0x_iff t).mp h2 with ⟨c1, rest, heq, hx⟩
      subst heq
      have hc1 : charUtf8Len c1 = 1 := by
        rcases hx with h | h <;> subst h <;> decide
      have h0 : charUtf8Len '0' = 1 := by decide
      simp only [List.map_cons, List.map_nil] at h1 h2
      simp [h1, h2, byteSliceFrom_two h0 hc1]
    · by_cases h3 : (decide (1 < strLen t) && startsWithChars ['0'] (t.map rustToLower)) = true
      · have h3' := h3
        rw [Bool.and_eq_true] at h3'
        rcases (sw_0_iff t).mp h3'.2 with ⟨rest, heq⟩
        subst heq
        have h0 : charUtf8Len '0' = 1 := by decide
        simp only [List.map_cons, List.map_nil] at h1 h2 h3
        simp [h1, h2, h3, byteSliceFrom_one h0]
      · simp [h1, h2, h3]

/-- The strict parser never panics: the guarded `unwrap` in the char
branch always finds byte 1, and the classifier slices are safe. -/
theorem parse_literalP_eq {T E : Type} (P : NumImpl T E) (text : List Char) :
    parse_literalP P text = some (parse_literal P text) := by
  simp only [parse_literalP, parse_literal]
  by_cases hg : strLen text = 3 ∧ text.head? = some sqc ∧ text.getLast? = some sqc
  · rcases char_guard_shape hg.1 hg.2.1 hg.2.2 with ⟨c, hc, heq⟩
    subst heq
    have hb : strUtf8Bytes [sqc, c, sqc] = [39, c.toNat, 39] := by
      have h1 : charUtf8Bytes sqc = [39] := by decide
      simp [strUtf8Bytes, h1, charUtf8Bytes_ascii hc]
    rw [if_pos hg, if_pos hg]
    simp [hb, byteAt1]
  · rw [if_neg hg, if_neg hg]
    rw [identify_literalP_eq]

/-- The fallback parser never panics, by the same two arguments. -/
theorem parse_literal_fallbackP_eq {T E : Type} (P : NumImpl T E) (text : List Char)
    (fallback : T) :
    parse_literal_fallbackP P text fallback = some (parse_literal_fallback P text fallback) := by
  simp only [parse_literal_fallbackP, parse_literal_fallback]
  by_cases hg : strLen text = 3 ∧ text.head? = some sqc ∧ text.getLast? = some sqc
  · rcases char_guard_shape hg.1 hg.2.1 hg.2.2 with ⟨c, hc, heq⟩
    subst heq
    have hb : strUtf8Bytes [sqc, c, sqc] = [39, c.toNat, 39] := by
      have h1 : charUtf8Bytes sqc = [39] := by decide
      simp [strUtf8Bytes, h1, charUtf8Bytes_ascii hc]
    rw [if_pos hg, if_pos hg]
    simp [hb, byteAt1]
  · rw [if_neg hg, if_neg hg]
    rw [identify_literalP_eq]
theorem dropWhile_append_last {p : Char → Bool} {c : Char} (hc : p c = false) (l : List Char) :
    ∃ m, List.dropWhile p (l ++ [c]) = m ++ [c] := by
  induction l with
  | nil => exact ⟨[], by simp [List.dropWhile, hc]⟩
  | cons a l ih =>
    by_cases ha : p a = true
    · simpa [List.dropWhile_cons, ha] using ih
    · exact ⟨a :: l, by simp [List.dropWhile_cons, ha]⟩

theorem dropWhile_eq_self_of_all {p : Char → Bool} {l : List Char}
    (h : ∀ c ∈ l, p c = false) : List.dropWhile p l = l := by
  cases l with
  | nil => rfl
  | cons a l => rw [List.dropWhile_cons, if_neg (by simp [h a (List.mem_cons_self a l)])]

/-- Trimming keeps a non-whitespace first character in place. -/
theorem rustTrim_head {s : List Char} {c : Char} (hh : s.head? = some c)
    (hw : isRustWhitespace c = false) : ∃ u, rustTrim s = c :: u := by
  match s with
  | [] => simp at hh
  | c' :: s' =>
    have hc : c' = c := by simpa using hh
    subst hc
    unfold rustTrim
    rw [List.dropWhile_cons, if_neg (by simp [hw])]
    rw [List.reverse_cons]
    rcases dropWhile_append_last hw s'.reverse with ⟨m, hm⟩
    rw [hm]
    exact ⟨m.reverse, by simp⟩

/-- Trimming a string with no whitespace at all is the identity. -/
theorem rustTrim_noop {s : List Char} (h : ∀ c ∈ s, isRustWhitespace c = false) :
    rustTrim s = s := by
  unfold rustTrim
  rw [dropWhile_eq_self_of_all h]
  rw [dropWhile_eq_self_of_all (fun c hc => h c (List.mem_reverse.mp hc))]
  exact List.reverse_reverse s
theorem from_str_radix_loop_lt {radix : Nat} (s : List Char) :
    ∀ acc v, acc < 2 ^ 32 → from_str_radix_loop radix s acc = .ok v → v < 2 ^ 32 := by
  induction s with
  | nil =>
    intro acc v ha h
    simp only [from_str_radix_loop] at h
    injection h with h
    omega
  | cons c rest ih =>
    intro acc v ha h
    simp only [from_str_radix_loop] at h
    split at h
    · exact absurd h (by simp)
    · split at h
      · rename_i d hd hov
        exact ih _ _ hov h
      · exact absurd h (by simp)

/-- A successful `u32` radix parse is within the `u32` range. -/
theorem u32_from_str_radix_lt {s : List Char} {radix v : Nat}
    (h : u32_from_str_radix s radix = .ok v) : v < 2 ^ 32 := by
  match s with
  | [] =>
    exact absurd h (by simp [u32_from_str_radix])
  | c :: rest =>
    simp only [u32_from_str_radix] at h
    by_cases hp : c = '+'
    · rw [if_pos hp] at h
      by_cases hr : rest = []
      · rw [if_pos hr] at h
        exact absurd h (by simp)
      · rw [if_neg hr] at h
        exact from_str_radix_loop_lt rest 0 v (by norm_num) h
    · rw [if_neg hp] at h
      exact from_str_radix_loop_lt (c :: rest) 0 v (by norm_num) h

theorem from_str_radix_loop_append {radix : Nat} (xs ys : List Char) :
    ∀ acc, from_str_radix_loop radix (xs ++ ys) acc =
      match from_str_radix_loop radix xs acc with
      | .ok a => from_str_radix_loop radix ys a
      | .error e => .error e := by
  induction xs with
  | nil =>
    intro acc
    simp [from_str_radix_loop]
  | cons c rest ih =>
    intro acc
    simp only [List.cons_append, from_str_radix_loop]
    split
    · rfl
    · split
      · exact ih _
      · rfl

theorem decDigitChar_toNat {d : Nat} (h : d < 10) : (decDigitChar d).toNat = 48 + d := by
  unfold decDigitChar
  exact toNat_ofNat_valid _ (by omega)

theorem charToDigit_decDigitChar {d : Nat} (h : d < 10) :
    charToDigit (decDigitChar d) 10 = some d := by
  unfold charToDigit
  rw [decDigitChar_toNat h]
  rw [if_pos (by omega)]
  have h48 : 48 + d - 48 = d := by omega
  rw [h48]
  simp [h]
theorem natToDecStringAux_head :
    ∀ fuel n, n < fuel →
      ∃ d rest, natToDecStringAux fuel n = decDigitChar d :: rest ∧ d < 10 ∧ (1 ≤ n → 1 ≤ d) := by
  intro fuel
  induction fuel with
  | zero =>
    intro n h
    omega
  | succ f ih =>
    intro n h
    by_cases h10 : n < 10
    · exact ⟨n, [], by simp [natToDecStringAux, h10], h10, fun h1 => h1⟩
    · have hdiv : n / 10 < f := by omega
      rcases ih (n / 10) hdiv with ⟨d, rest, heq, hd, hpos⟩
      refine ⟨d, rest ++ [decDigitChar (n % 10)], ?_, hd, fun _ => hpos (by omega)⟩
      simp [natToDecStringAux, h10, heq]

theorem natToDecStringAux_mem :
    ∀ fuel n, n < fuel → ∀ c ∈ natToDecStringAux fuel n, ∃ d, d < 10 ∧ c = decDigitChar d := by
  intro fuel
  induction fuel with
  | zero =>
    intro n h
    omega
  | succ f ih =>
    intro n h c hc
    by_cases h10 : n < 10
    · simp only [natToDecStringAux, if_pos h10, List.mem_singleton] at hc
      exact ⟨n, h10, hc⟩
    · have hdiv : n / 10 < f := by omega
      simp only [natToDecStringAux, if_neg h10, List.mem_append, List.mem_singleton] at hc
      rcases hc with hc | hc
      · exact ih (n / 10) hdiv c hc
      · exact ⟨n % 10, by omega, hc⟩

theorem natToDecStringAux_loop :
    ∀ fuel n acc, n < fuel →
      acc * 10 ^ (natToDecStringAux fuel n).length + n < 2 ^ 32 →
      from_str_radix_loop 10 (natToDecStringAux fuel n) acc =
        .ok (acc * 10 ^ (natToDecStringAux fuel n).length + n) := by
  intro fuel
  induction fuel with
  | zero =>
    intro n acc h
    omega
  | succ f ih =>
    intro n acc h hb
    by_cases h10 : n < 10
    · have heq : natToDecStringAux (f + 1) n = [decDigitChar n] := by
        simp [natToDecStringAux, h10]
      rw [heq] at hb ⊢
      simp only [List.length_singleton, pow_one] at hb ⊢
      simp only [from_str_radix_loop, charToDigit_decDigitChar h10]
      rw [if_pos hb]
    · have hdiv : n / 10 < f := by omega
      have heq : natToDecStringAux (f + 1) n =
          natToDecStringAux f (n / 10) ++ [decDigitChar (n % 10)] := by
        simp [natToDecStringAux, h10]
      rw [heq] at hb ⊢
      simp only [List.length_append, List.length_singleton] at hb ⊢
      rw [pow_succ] at hb ⊢
      have hq1 : 1 ≤ 10 ^ (natToDecStringAux f (n / 10)).length :=
        Nat.one_le_pow _ _ (by omega)
      generalize hq : (10 : Nat) ^ (natToDecStringAux f (n / 10)).length = q at hb hq1 ⊢
      have hmul : acc * (q * 10) = acc * q * 10 := by ring
      rw [hmul] at hb ⊢
      have hbb : acc * q + n / 10 < 2 ^ 32 := by omega
      rw [from_str_radix_loop_append]
      rw [ih (n / 10) acc hdiv (by rw [hq]; exact hbb)]
      rw [hq]
      have hmod : n % 10 < 10 := by omega
      show from_str_radix_loop 10 [decDigitChar (n % 10)] (acc * q + n / 10) = _
      simp only [from_str_radix_loop, charToDigit_decDigitChar hmod]
      rw [if_pos (by omega)]
      congr 1
      omega
/-- Decimal round trip through the model of `u32::from_str_radix`. -/
theorem u32_from_str_radix_natToDecString {n : Nat} (h : n < 2 ^ 32) :
    u32_from_str_radix (natToDecString n) 10 = .ok n := by
  rcases natToDecStringAux_head (n + 1) n (by omega) with ⟨d, rest, heq, hd, _⟩
  have hloop := natToDecStringAux_loop (n + 1) n 0 (by omega) (by simpa using h)
  simp only [Nat.zero_mul, Nat.zero_add] at hloop
  unfold natToDecString
  rw [heq]
  simp only [u32_from_str_radix]
  rw [if_neg ?hplus]
  case hplus =>
    intro hp
    have := congrArg Char.toNat hp
    rw [decDigitChar_toNat hd] at this
    have hplus : Char.toNat '+' = 43 := rfl
    omega
  rw [← heq]
  rw [hloop]
theorem decDigitChar_ne_of_toNat {d : Nat} (hd : d < 10) {c : Char} (hc : ¬ c.toNat = 48 + d) :
    ¬ decDigitChar d = c := by
  intro h
  exact hc (by rw [← h, decDigitChar_toNat hd])

theorem decDigitChar_not_ws {d : Nat} (hd : d < 10) :
    isRustWhitespace (decDigitChar d) = false := by
  simp only [isRustWhitespace, decDigitChar_toNat hd, decide_eq_false_iff_not]
  omega

theorem rustToLower_decDigitChar {d : Nat} (hd : d < 10) :
    rustToLower (decDigitChar d) = decDigitChar d := by
  unfold rustToLower
  rw [if_neg (by rw [decDigitChar_toNat hd]; omega)]

/-- The classifier is the identity (radix ten, no trim effect) on the
decimal representation of a positive number: no whitespace, no prefix,
and the leading digit is not zero. -/
theorem identify_literal_decString {n : Nat} (h1 : 1 ≤ n) :
    identify_literal (natToDecString n) = (natToDecString n, 10) := by
  rcases natToDecStringAux_head (n + 1) n (by omega) with ⟨d, rest, heq, hd, hpos⟩
  have heqs : natToDecString n = decDigitChar d :: rest := heq
  have hd1 : 1 ≤ d := hpos h1
  have hmem := natToDecStringAux_mem (n + 1) n (by omega)
  have htrim : rustTrim (natToDecString n) = natToDecString n := by
    refine rustTrim_noop ?_
    intro c hc
    rcases hmem c hc with ⟨d', hd', hcd⟩
    subst hcd
    exact decDigitChar_not_ws hd'
  rw [heqs] at htrim
  have hne0 : (('0' : Char) == decDigitChar d) = false := by
    rw [beq_eq_false_iff_ne]
    intro h
    have h2 := congrArg Char.toNat h
    rw [decDigitChar_toNat hd] at h2
    have h0 : Char.toNat '0' = 48 := rfl
    omega
  simp only [identify_literal, htrim, heqs, List.map_cons, rustToLower_decDigitChar hd,
    startsWithChars, hne0, Bool.false_and, Bool.and_false]
  simp

theorem removeUnderscores_decString (n : Nat) :
    removeUnderscores (natToDecString n) = natToDecString n := by
  unfold removeUnderscores
  refine List.filter_eq_self.mpr ?_
  intro c hc
  rcases natToDecStringAux_mem (n + 1) n (by omega) c hc with ⟨d, hd, hcd⟩
  subst hcd
  simp only [Bool.not_eq_true']
  rw [beq_eq_false_iff_ne]
  refine decDigitChar_ne_of_toNat hd ?_
  have hu : Char.toNat '_' = 95 := rfl
  omega

/-- Any successful strict parse at the `u32` instance is in range. -/
theorem u32_parse_literal_ok_lt {text : List Char} {v : Nat}
    (h : u32_parse_literal text = .ok v) : v < 2 ^ 32 := by
  unfold u32_parse_literal parse_literal at h
  split at h
  · exact u32_from_str_radix_lt h
  · exact u32_from_str_radix_lt h
/-- C7: for every input whose strict parse succeeds with value v at the
u32 instance, re-parsing the base-ten decimal representation of v
succeeds and reproduces v (round trip via base-10 re-serialization). -/
theorem c7_decimal_roundtrip (text : List Char) (v : Nat)
    (h : u32_parse_literal text = .ok v) :
    u32_parse_literal (natToDecString v) = .ok v := by
  have hv : v < 2 ^ 32 := u32_parse_literal_ok_lt h
  by_cases h1 : 1 ≤ v
  · rcases natToDecStringAux_head (v + 1) v (by omega) with ⟨d, rest, heq, hd, hpos⟩
    have heqs : natToDecString v = decDigitChar d :: rest := heq
    unfold u32_parse_literal
    simp only [parse_literal]
    have hg : ¬ (strLen (natToDecString v) = 3 ∧ (natToDecString v).head? = some sqc ∧
        (natToDecString v).getLast? = some sqc) := by
      rintro ⟨h3, hh, hl⟩
      rw [heqs, List.head?_cons] at hh
      injection hh with hh
      have h2 := congrArg Char.toNat hh
      rw [decDigitChar_toNat hd] at h2
      have hq : Char.toNat sqc = 39 := rfl
      omega
    rw [if_neg hg]
    simp only [identify_literal_decString h1, removeUnderscores_decString]
    exact u32_from_str_radix_natToDecString hv
  · have hv0 : v = 0 := by omega
    subst hv0
    decide

/-- Witness for C7 at a concrete input: parsing the hexadecimal literal
0x41 yields 65, and re-parsing its decimal representation yields 65. -/
theorem c7_decimal_roundtrip_witness :
    u32_parse_literal ("0x41".data) = .ok 65 ∧ u32_parse_literal (natToDecString 65) = .ok 65 :=
  ⟨by decide, c7_decimal_roundtrip ("0x41".data) 65 (by decide)⟩
/-- Fallback parsing is strict parsing followed by `unwrap_or`, branch by
branch. -/
theorem fallback_eq_unwrap {T E : Type} (P : NumImpl T E) (text : List Char) (fb : T) :
    parse_literal_fallback P text fb = unwrap_or (parse_literal P text) fb := by
  simp only [parse_literal, parse_literal_fallback]
  by_cases hg : strLen text = 3 ∧ text.head? = some sqc ∧ text.getLast? = some sqc
  · rw [if_pos hg, if_pos hg]
  · rw [if_neg hg, if_neg hg]

/-- C2: for every input that is not an exactly-three-byte string starting
and ending with a single quote, parse_literal returns exactly the result
of the underlying from_str_radix at the classifier radix on the
classifier body with every underscore removed — the value on success and
the same failure unmodified on failure. -/
theorem c2_classifier_path {T E : Type} (P : NumImpl T E) (text : List Char)
    (hg : ¬ (strLen text = 3 ∧ text.head? = some sqc ∧ text.getLast? = some sqc)) :
    parse_literal P text =
      P.from_str_radix (removeUnderscores (identify_literal text).1)
        (identify_literal text).2 := by
  simp only [parse_literal]
  rw [if_neg hg]

/-- Witness for C2 at the concrete input 0xCAFE with the u32 instance. -/
theorem c2_classifier_path_witness :
    parse_literal u32Impl ("0xCAFE".data) =
      u32Impl.from_str_radix (removeUnderscores (identify_literal ("0xCAFE".data)).1)
        (identify_literal ("0xCAFE".data)).2 :=
  c2_classifier_path u32Impl ("0xCAFE".data) (by decide)

/-- C3: for every input text and every fallback value,
parse_literal_fallback equals the strict parse composed with the total
replace-failure-with-default combinator `unwrap_or`, hence never fails. -/
theorem c3_fallback_equiv {T E : Type} (P : NumImpl T E) (text : List Char) (fb : T) :
    parse_literal_fallback P text fb = unwrap_or (parse_literal P text) fb :=
  fallback_eq_unwrap P text fb

/-- C4: every input of byte length three delimited by single quotes is
parsed by converting the code point of the single interior character to
its base-ten digit string and parsing that at radix 10; in particular a
quoted capital A yields 65 at the u32 instance. -/
theorem c4_char_literal :
    (∀ (T E : Type) (P : NumImpl T E) (text : List Char),
      strLen text = 3 → text.head? = some sqc → text.getLast? = some sqc →
      ∃ c : Char, text = [sqc, c, sqc] ∧
        parse_literal P text = P.from_str_radix (natToDecString c.toNat) 10) ∧
    u32_parse_literal [sqc, 'A', sqc] = .ok 65 := by
  constructor
  · intro T E P text h3 hh hl
    rcases char_guard_shape h3 hh hl with ⟨c, hc, heq⟩
    subst heq
    refine ⟨c, rfl, ?_⟩
    simp only [parse_literal]
    rw [if_pos ⟨h3, hh, hl⟩]
    have hb : byteAt1 [sqc, c, sqc] = c.toNat := by
      unfold byteAt1
      have h1 : charUtf8Bytes sqc = [39] := by decide
      simp [strUtf8Bytes, h1, charUtf8Bytes_ascii hc]
    rw [hb]
  · decide

/-- Witness for C4 at the concrete input consisting of a quoted capital
A with the u32 instance. -/
theorem c4_char_literal_witness :
    ∃ c : Char, ([sqc, 'A', sqc] : List Char) = [sqc, c, sqc] ∧
      parse_literal u32Impl [sqc, 'A', sqc] = u32Impl.from_str_radix (natToDecString c.toNat) 10 :=
  c4_char_literal.1 Nat IntErrorKind u32Impl [sqc, 'A', sqc] (by decide) (by decide) (by decide)

/-- C5: the bare single-character input 0 parses as decimal zero — the
strict u32 parse returns 0, the classifier assigns the full body and
radix ten rather than an octal prefix with empty body, and for every
numeric instance the underlying parser is called on body 0 at radix
ten. -/
theorem c5_bare_zero :
    u32_parse_literal ['0'] = .ok 0 ∧ identify_literal ['0'] = (['0'], 10) ∧
    ∀ (T E : Type) (P : NumImpl T E), parse_literal P ['0'] = P.from_str_radix ['0'] 10 := by
  refine ⟨by decide, by decide, ?_⟩
  intro T E P
  simp only [parse_literal]
  rw [if_neg (by decide)]
  have h : identify_literal ['0'] = (['0'], 10) := by decide
  rw [h]
  have h2 : removeUnderscores ['0'] = ['0'] := by decide
  rw [h2]
/-- C6: every malformed char literal — an input that starts with a single
quote but is not an exactly-three-byte quote-delimited string, which
covers the too-short, too-long and multi-byte-interior quoted examples —
falls through to classifier parsing and fails with an invalid-digit
failure under the strict u32 parse (and returns the fallback under the
fallback parse), not a distinct bad-char-literal error. -/
theorem c6_malformed_char_literal (text : List Char) (fb : Nat)
    (hh : text.head? = some sqc)
    (hng : ¬ (strLen text = 3 ∧ text.getLast? = some sqc)) :
    u32_parse_literal text = .error .InvalidDigit ∧
    u32_parse_literal_fallback text fb = fb := by
  have hg : ¬ (strLen text = 3 ∧ text.head? = some sqc ∧ text.getLast? = some sqc) := by
    rintro ⟨h3, _, hl⟩
    exact hng ⟨h3, hl⟩
  rcases rustTrim_head hh (by decide) with ⟨u, htrim⟩
  have hlq : rustToLower sqc = sqc := by decide
  have hne : (('0' : Char) == sqc) = false := by decide
  have hident : identify_literal text = (sqc :: u, 10) := by
    simp only [identify_literal, htrim, List.map_cons, hlq, startsWithChars, hne,
      Bool.false_and, Bool.and_false]
    simp
  have hru : removeUnderscores (sqc :: u) = sqc :: removeUnderscores u := by
    unfold removeUnderscores
    rw [List.filter_cons_of_pos (by decide)]
  have hstrict : u32_parse_literal text = .error .InvalidDigit := by
    unfold u32_parse_literal
    simp only [parse_literal]
    rw [if_neg hg, hident]
    have hcd : charToDigit sqc 10 = none := by decide
    have hplus : ¬ sqc = '+' := by decide
    simp only [hru, u32Impl, u32_from_str_radix]
    rw [if_neg hplus]
    simp only [from_str_radix_loop, hcd]
  refine ⟨hstrict, ?_⟩
  rw [u32_parse_literal_fallback, fallback_eq_unwrap]
  have : parse_literal u32Impl text = .error .InvalidDigit := hstrict
  rw [this]
  rfl

/-- Witness for C6 at the quoted multi-byte character U+5168. -/
theorem c6_malformed_char_literal_witness :
    u32_parse_literal [sqc, Char.ofNat 0x5168, sqc] = .error .InvalidDigit ∧
    u32_parse_literal_fallback [sqc, Char.ofNat 0x5168, sqc] 51966 = 51966 :=
  c6_malformed_char_literal [sqc, Char.ofNat 0x5168, sqc] 51966 (by decide) (by decide)

/-- C8: neither entry point can panic on any input: the byte-exact
versions, in which a byte slice off a character boundary or a failing
unwrap of byte 1 is `none`, always return `some` of the total model —
the classifier slices always fall on character boundaries and the
guarded unwrap always finds byte 1. -/
theorem c8_no_panic :
    ∀ (T E : Type) (P : NumImpl T E) (text : List Char) (fb : T),
      identify_literalP text = some (identify_literal text) ∧
      parse_literalP P text = some (parse_literal P text) ∧
      parse_literal_fallbackP P text fb = some (parse_literal_fallback P text fb) :=
  fun _ _ P text fb =>
    ⟨identify_literalP_eq text, parse_literalP_eq P text, parse_literal_fallbackP_eq P text fb⟩

/-- C9: the char-literal check runs on the raw untrimmed input, so a
quoted character surrounded by whitespace is not recognized and fails
(returning the fallback in fallback mode), while the same quoted
character without whitespace succeeds and prefixed, octal and decimal
literals tolerate surrounding whitespace because the classifier trims. -/
theorem c9_raw_untrimmed_char_guard :
    u32_parse_literal [' ', sqc, 'A', sqc, ' '] = .error .InvalidDigit ∧
    u32_parse_literal_fallback [' ', sqc, 'A', sqc, ' '] 7 = 7 ∧
    u32_parse_literal [sqc, 'A', sqc] = .ok 65 ∧
    u32_parse_literal (" 0x1F ".data) = .ok 31 ∧
    u32_parse_literal (" 0b101 ".data) = .ok 5 ∧
    u32_parse_literal (" 077 ".data) = .ok 63 ∧
    u32_parse_literal (" 123 ".data) = .ok 123 := by
  decide

/-- C10: the interior byte of a char literal is not validated: every
quoted single-byte character parses to its code point at the u32
instance, including a quote itself (39) and a space (32). -/
theorem c10_any_interior_byte :
    (∀ c : Char, c.toNat < 128 → u32_parse_literal [sqc, c, sqc] = .ok c.toNat) ∧
    u32_parse_literal [sqc, sqc, sqc] = .ok 39 ∧
    u32_parse_literal [sqc, ' ', sqc] = .ok 32 := by
  refine ⟨?_, by decide, by decide⟩
  intro c hc
  have hq : charUtf8Len sqc = 1 := by decide
  have h3 : strLen [sqc, c, sqc] = 3 := by
    simp [strLen, hq, charUtf8Len_ascii hc]
  unfold u32_parse_literal
  simp only [parse_literal]
  rw [if_pos ⟨h3, rfl, rfl⟩]
  have hb : byteAt1 [sqc, c, sqc] = c.toNat := by
    unfold byteAt1
    have h1 : charUtf8Bytes sqc = [39] := by decide
    simp [strUtf8Bytes, h1, charUtf8Bytes_ascii hc]
  rw [hb]
  exact u32_from_str_radix_natToDecString (by omega)

/-- Witness for C10 at the quoted letter Q, code point 81. -/
theorem c10_any_interior_byte_witness :
    u32_parse_literal [sqc, 'Q', sqc] = .ok 81 :=
  c10_any_interior_byte.1 'Q' (by decide)
